import Mathlib

set_option autoImplicit false

/-
Shallow embedding of src/src/cache.ts (class SimpleCache<T>).

The JavaScript `Map<string, CacheEntry<T>>` is modelled as an insertion-ordered
association list with unique keys; `Map.prototype.set` overwrites in place
(keeping the key's position), `Map.prototype.delete` removes the entry, and
iteration order is insertion order.  Wall-clock time (`Date.now()`) is passed
explicitly as an integer `now` argument to the operations that read it.
`setInterval`/`clearInterval` are modelled as a boolean flag recording whether
the background sweep timer is active.  Statistics counters are naturals.
-/

namespace CacheModel

/-- CacheEntry<T> from types.ts: cached value, insertion time (ms), ttl (ms). -/
structure CacheEntry (T : Type) where
  data : T
  timestamp : Int
  ttl : Int
  deriving Repr, DecidableEq

/-- Insertion-ordered string-keyed map, the model of the JS `Map`. -/
abbrev JsMap (T : Type) : Type := List (String × T)

/-- Map.prototype.get: first (in a real `Map`, only) entry with the key. -/
def mapGet {α : Type} : JsMap α → String → Option α
  | [], _ => none
  | p :: rest, k => if p.1 = k then some p.2 else mapGet rest k

/-- Map.prototype.set: overwrite in place if the key is present (keeping its
position in iteration order), otherwise append at the end. -/
def mapSet {α : Type} : JsMap α → String → α → JsMap α
  | [], k, v => [(k, v)]
  | p :: rest, k, v => if p.1 = k then (k, v) :: rest else p :: mapSet rest k v

/-- Map.prototype.delete: remove the entry with the key, if present. -/
def mapDelete {α : Type} : JsMap α → String → JsMap α
  | [], _ => []
  | p :: rest, k => if p.1 = k then rest else p :: mapDelete rest k

/-- State of a SimpleCache<T> instance (cache.ts lines 3-9).
`cleanupInterval` records whether the background sweep timer is active. -/
structure SimpleCache (T : Type) where
  cache : JsMap (CacheEntry T)
  defaultTTL : Int
  maxSize : Nat
  cleanupInterval : Bool
  hits : Nat
  misses : Nat
  deriving Repr, DecidableEq

/-- Constructor (cache.ts lines 11-17): empty map, zeroed counters, sweep timer
started. -/
def SimpleCache.new (T : Type) (defaultTTL : Int) (maxSize : Nat) : SimpleCache T :=
  { cache := [], defaultTTL := defaultTTL, maxSize := maxSize,
    cleanupInterval := true, hits := 0, misses := 0 }

/-- ensureCapacity (cache.ts lines 30-38): if size >= maxSize, fetch the first
key of the map; `if (firstKey)` is JS truthiness, so the delete is skipped both
when the map is empty (firstKey undefined) and when the first key is the empty
string. -/
def SimpleCache.ensureCapacity {T : Type} (s : SimpleCache T) : SimpleCache T :=
  if s.maxSize ≤ s.cache.length then
    match s.cache.head? with
    | some p => if p.1 = "" then s else { s with cache := mapDelete s.cache p.1 }
    | none => s
  else s

/-- Evaluation of the JS expression `ttl || this.defaultTTL`: an omitted
argument is `undefined` (here `none`) and the only falsy integral number is 0. -/
def ttlOrDefault (ttl : Option Int) (defaultTTL : Int) : Int :=
  match ttl with
  | none => defaultTTL
  | some t => if t = 0 then defaultTTL else t

/-- set (cache.ts lines 19-28): ensureCapacity, then insert/overwrite the entry
with timestamp `now` and ttl `ttl || defaultTTL`. -/
def SimpleCache.set {T : Type} (s : SimpleCache T) (key : String) (data : T)
    (now : Int) (ttl : Option Int) : SimpleCache T :=
  let s1 := s.ensureCapacity
  { s1 with cache := mapSet s1.cache key ⟨data, now, ttlOrDefault ttl s1.defaultTTL⟩ }

/-- get (cache.ts lines 40-58): returns the value (or `none` for JS `null`) and
the updated state. -/
def SimpleCache.get {T : Type} (s : SimpleCache T) (key : String) (now : Int) :
    Option T × SimpleCache T :=
  match mapGet s.cache key with
  | none => (none, { s with misses := s.misses + 1 })
  | some entry =>
    if now - entry.timestamp > entry.ttl then
      (none, { s with cache := mapDelete s.cache key, misses := s.misses + 1 })
    else
      (some entry.data, { s with hits := s.hits + 1 })

/-- has (cache.ts lines 60-62): `return this.get(key) !== null`. -/
def SimpleCache.has {T : Type} (s : SimpleCache T) (key : String) (now : Int) :
    Bool × SimpleCache T :=
  let r := s.get key now
  (r.1.isSome, r.2)

/-- delete (cache.ts lines 64-66). -/
def SimpleCache.delete {T : Type} (s : SimpleCache T) (key : String) : SimpleCache T :=
  { s with cache := mapDelete s.cache key }

/-- clear (cache.ts lines 68-73): empty the map and reset statistics. -/
def SimpleCache.clear {T : Type} (s : SimpleCache T) : SimpleCache T :=
  { s with cache := [], hits := 0, misses := 0 }

/-- cleanup (cache.ts lines 76-83): delete every entry with
`now - entry.timestamp > entry.ttl`; the surviving entries, in order, are those
the loop does not delete. -/
def SimpleCache.cleanup {T : Type} (s : SimpleCache T) (now : Int) : SimpleCache T :=
  { s with cache := s.cache.filter (fun p => !(decide (now - p.2.timestamp > p.2.ttl))) }

/-- destroy (cache.ts lines 86-94): cancel the sweep timer (a no-op when it is
already cancelled), empty the map, reset statistics. -/
def SimpleCache.destroy {T : Type} (s : SimpleCache T) : SimpleCache T :=
  { s with cleanupInterval := false, cache := [], hits := 0, misses := 0 }

/-- Statistics record returned by getStats; `hitRate` is `Option` because the
JS object carries `undefined` when there were no requests. -/
structure CacheStats where
  size : Nat
  maxSize : Nat
  hitRate : Option ℚ
  hits : Nat
  misses : Nat
  deriving Repr, DecidableEq

/-- getStats (cache.ts lines 97-106). -/
def SimpleCache.getStats {T : Type} (s : SimpleCache T) : CacheStats :=
  let totalRequests := s.hits + s.misses
  { size := s.cache.length
    maxSize := s.maxSize
    hits := s.hits
    misses := s.misses
    hitRate := if 0 < totalRequests then some ((s.hits : ℚ) / (totalRequests : ℚ)) else none }

/-- One recorded invocation of `set`, for reasoning about call sequences. -/
structure SetCall (T : Type) where
  key : String
  data : T
  now : Int
  ttl : Option Int

/-- Run a sequence of `set` calls in order. -/
def runSets {T : Type} (s : SimpleCache T) (calls : List (SetCall T)) : SimpleCache T :=
  calls.foldl (fun st c => st.set c.key c.data c.now c.ttl) s

/-- Public operations of the cache, for reasoning about arbitrary traces. -/
inductive CacheOp (T : Type) where
  | set (key : String) (data : T) (ttl : Option Int) (now : Int)
  | get (key : String) (now : Int)
  | has (key : String) (now : Int)
  | delete (key : String)
  | clear
  | cleanup (now : Int)
  | getStats
  | destroy

/-- State transition of a single public operation. -/
def runOp {T : Type} (s : SimpleCache T) : CacheOp T → SimpleCache T
  | .set k v t now => s.set k v now t
  | .get k now => (s.get k now).2
  | .has k now => (s.has k now).2
  | .delete k => s.delete k
  | .clear => s.clear
  | .cleanup now => s.cleanup now
  | .getStats => s
  | .destroy => s.destroy

/-- Run a trace of public operations in order. -/
def runOps {T : Type} (s : SimpleCache T) (ops : List (CacheOp T)) : SimpleCache T :=
  ops.foldl runOp s

/-- Tally of `get` invocations since the last reset: `get` counts one, `has`
counts one (it invokes `get`), `clear` and `destroy` reset the tally. -/
def tallyOp {T : Type} (n : Nat) : CacheOp T → Nat
  | .get _ _ => n + 1
  | .has _ _ => n + 1
  | .clear => 0
  | .destroy => 0
  | _ => n

/-- Number of `get` invocations performed since the most recent reset in the
trace (construction, `clear`, or `destroy`). -/
def getsSinceReset {T : Type} (ops : List (CacheOp T)) : Nat :=
  ops.foldl tallyOp 0

/-! Basic lemmas about the JsMap operations. -/

theorem mapGet_isSome_iff {α : Type} (m : JsMap α) (k : String) :
    (mapGet m k).isSome = true ↔ k ∈ m.map Prod.fst := by
  induction m with
  | nil => simp [mapGet]
  | cons p rest ih =>
    simp only [mapGet, List.map_cons, List.mem_cons]
    by_cases h : p.1 = k
    · simp [h]
    · rw [if_neg h, ih]
      constructor
      · exact fun hm => Or.inr hm
      · rintro (hm | hm)
        · exact absurd hm.symm h
        · exact hm

theorem length_mapSet_le {α : Type} (m : JsMap α) (k : String) (v : α) :
    (mapSet m k v).length ≤ m.length + 1 := by
  induction m with
  | nil => simp [mapSet]
  | cons p rest ih =>
    by_cases h : p.1 = k <;> simp [mapSet, h] <;> omega

theorem mem_of_mem_mapSet {α : Type} {m : JsMap α} {k : String} {v : α} {q : String × α}
    (hq : q ∈ mapSet m k v) : q = (k, v) ∨ q ∈ m := by
  induction m with
  | nil =>
    simp only [mapSet, List.mem_singleton] at hq
    exact Or.inl hq
  | cons p rest ih =>
    by_cases h : p.1 = k
    · simp only [mapSet, if_pos h] at hq
      rcases List.mem_cons.mp hq with hq1 | hq1
      · exact Or.inl hq1
      · exact Or.inr (List.mem_cons_of_mem _ hq1)
    · simp only [mapSet, if_neg h] at hq
      rcases List.mem_cons.mp hq with hq1 | hq1
      · exact Or.inr (by rw [hq1]; exact List.mem_cons_self p rest)
      · rcases ih hq1 with h1 | h1
        · exact Or.inl h1
        · exact Or.inr (List.mem_cons_of_mem _ h1)

theorem mem_of_mem_mapDelete {α : Type} {m : JsMap α} {k : String} {q : String × α}
    (hq : q ∈ mapDelete m k) : q ∈ m := by
  induction m with
  | nil => simpa [mapDelete] using hq
  | cons p rest ih =>
    by_cases h : p.1 = k
    · simp only [mapDelete, if_pos h] at hq
      exact List.mem_cons_of_mem _ hq
    · simp only [mapDelete, if_neg h] at hq
      rcases List.mem_cons.mp hq with hq1 | hq1
      · rw [hq1]; exact List.mem_cons_self p rest
      · exact List.mem_cons_of_mem _ (ih hq1)

theorem mapSet_of_not_mem {α : Type} {m : JsMap α} {k : String} (v : α)
    (h : k ∉ m.map Prod.fst) : mapSet m k v = m ++ [(k, v)] := by
  induction m with
  | nil => simp [mapSet]
  | cons p rest ih =>
    simp only [List.map_cons, List.mem_cons] at h
    push_neg at h
    simp [mapSet, Ne.symm h.1, ih h.2]

theorem mapSet_keys_of_mem {α : Type} {m : JsMap α} {k : String} (v : α)
    (h : k ∈ m.map Prod.fst) : (mapSet m k v).map Prod.fst = m.map Prod.fst := by
  induction m with
  | nil => simp at h
  | cons p rest ih =>
    by_cases hp : p.1 = k
    · simp [mapSet, hp]
    · have h2 : k ∈ rest.map Prod.fst := by
        rcases List.mem_cons.mp h with h1 | h1
        · exact absurd h1.symm hp
        · exact h1
      simp [mapSet, hp, ih h2]

theorem mapGet_mapSet_self {α : Type} (m : JsMap α) (k : String) (v : α) :
    mapGet (mapSet m k v) k = some v := by
  induction m with
  | nil => simp [mapSet, mapGet]
  | cons p rest ih =>
    by_cases h : p.1 = k <;> simp [mapSet, h, mapGet, ih]

theorem mapDelete_cons_self {α : Type} (p : String × α) (rest : JsMap α) :
    mapDelete (p :: rest) p.1 = rest := by
  simp [mapDelete]

/-! Lemmas about ensureCapacity. -/

theorem ensureCapacity_of_lt {T : Type} (s : SimpleCache T)
    (h : s.cache.length < s.maxSize) : s.ensureCapacity = s := by
  simp [SimpleCache.ensureCapacity, Nat.not_le.mpr h]

theorem ensureCapacity_fields {T : Type} (s : SimpleCache T) :
    s.ensureCapacity.defaultTTL = s.defaultTTL ∧ s.ensureCapacity.maxSize = s.maxSize ∧
    s.ensureCapacity.hits = s.hits ∧ s.ensureCapacity.misses = s.misses ∧
    s.ensureCapacity.cleanupInterval = s.cleanupInterval := by
  unfold SimpleCache.ensureCapacity
  repeat' split
  all_goals exact ⟨rfl, rfl, rfl, rfl, rfl⟩

theorem ensureCapacity_cache_subset {T : Type} (s : SimpleCache T)
    {q : String × CacheEntry T} (hq : q ∈ s.ensureCapacity.cache) : q ∈ s.cache := by
  unfold SimpleCache.ensureCapacity at hq
  split at hq
  · split at hq
    · split at hq
      · exact hq
      · exact mem_of_mem_mapDelete hq
    · exact hq
  · exact hq

theorem ensureCapacity_length_lt {T : Type} (s : SimpleCache T) (hmax : 1 ≤ s.maxSize)
    (hkeys : ∀ q ∈ s.cache, q.1 ≠ "") (hlen : s.cache.length ≤ s.maxSize) :
    s.ensureCapacity.cache.length < s.maxSize := by
  rcases Nat.lt_or_ge s.cache.length s.maxSize with h | h
  · rw [ensureCapacity_of_lt s h]; exact h
  · have hne : s.cache ≠ [] := by
      intro h0
      rw [h0] at h
      simp at h
      omega
    obtain ⟨p, rest, hc⟩ := List.exists_cons_of_ne_nil hne
    have hp1 : p.1 ≠ "" := hkeys p (hc ▸ List.mem_cons_self p rest)
    have hhead : s.cache.head? = some p := by rw [hc]; rfl
    have : s.ensureCapacity = { s with cache := mapDelete s.cache p.1 } := by
      unfold SimpleCache.ensureCapacity
      rw [if_pos h, hhead]
      simp [hp1]
    rw [this]
    simp only [hc, mapDelete_cons_self]
    have : s.cache.length = rest.length + 1 := by rw [hc]; rfl
    omega

/-! Lemmas about set, towards the capacity invariant. -/

theorem set_maxSize {T : Type} (s : SimpleCache T) (k : String) (v : T) (now : Int)
    (t : Option Int) : (s.set k v now t).maxSize = s.maxSize := by
  simp [SimpleCache.set, (ensureCapacity_fields s).2.1]

theorem set_preserves_inv {T : Type} (s : SimpleCache T) (k : String) (v : T) (now : Int)
    (t : Option Int) (hmax : 1 ≤ s.maxSize) (hk : k ≠ "")
    (hlen : s.cache.length ≤ s.maxSize) (hkeys : ∀ q ∈ s.cache, q.1 ≠ "") :
    (s.set k v now t).cache.length ≤ s.maxSize ∧ ∀ q ∈ (s.set k v now t).cache, q.1 ≠ "" := by
  have hcap := ensureCapacity_length_lt s hmax hkeys hlen
  constructor
  · calc (s.set k v now t).cache.length
        ≤ s.ensureCapacity.cache.length + 1 := length_mapSet_le _ _ _
      _ ≤ s.maxSize := by omega
  · intro q hq
    rcases mem_of_mem_mapSet hq with h1 | h1
    · rw [h1]; exact hk
    · exact hkeys q (ensureCapacity_cache_subset s h1)

theorem runSets_inv {T : Type} (calls : List (SetCall T)) (s : SimpleCache T)
    (hmax : 1 ≤ s.maxSize) (hlen : s.cache.length ≤ s.maxSize)
    (hkeys : ∀ q ∈ s.cache, q.1 ≠ "") (hcalls : ∀ c ∈ calls, c.key ≠ "") :
    (runSets s calls).maxSize = s.maxSize ∧ (runSets s calls).cache.length ≤ s.maxSize ∧
    ∀ q ∈ (runSets s calls).cache, q.1 ≠ "" := by
  induction calls generalizing s with
  | nil => exact ⟨rfl, hlen, hkeys⟩
  | cons c rest ih =>
    have hc : c.key ≠ "" := hcalls c (List.mem_cons_self c rest)
    have hstep := set_preserves_inv s c.key c.data c.now c.ttl hmax hc hlen hkeys
    have hms := set_maxSize s c.key c.data c.now c.ttl
    have := ih (s.set c.key c.data c.now c.ttl) (hms ▸ hmax) (hms ▸ hstep.1) hstep.2
      (fun d hd => hcalls d (List.mem_cons_of_mem c hd))
    simpa [runSets, List.foldl_cons, hms] using this

/-- C1 (amended): for a cache constructed with maxSize ≥ 1, after each `set` in
any sequence of `set` calls whose keys are non-empty strings (the spec's stated
input domain for `set`), the number of stored entries is at most maxSize.  The
original claim's "non-negative maxSize" fails at maxSize = 0: `set` always
inserts while `ensureCapacity` evicts at most one entry, so after any `set` a
maxSize-0 cache holds one entry. -/
theorem capacity_invariant {T : Type} (d : Int) (mx : Nat) (calls : List (SetCall T))
    (hmax : 1 ≤ mx) (hkeys : ∀ c ∈ calls, c.key ≠ "") (i : Nat) :
    (runSets (SimpleCache.new T d mx) (calls.take i)).cache.length ≤ mx := by
  have h := runSets_inv (calls.take i) (SimpleCache.new T d mx) hmax
    (by simp [SimpleCache.new]) (by simp [SimpleCache.new])
    (fun c hc => hkeys c (List.take_subset i calls hc))
  exact h.2.1

/-- Witness for capacity_invariant at a concrete two-call sequence. -/
theorem capacity_invariant_witness :
    (runSets (SimpleCache.new Nat 1000 1)
      ([⟨"a", 1, 0, none⟩, ⟨"b", 2, 0, none⟩].take 2)).cache.length ≤ 1 :=
  capacity_invariant 1000 1 [⟨"a", 1, 0, none⟩, ⟨"b", 2, 0, none⟩]
    (by decide) (by decide) 2

/-- C1 counterexample: with maxSize = 0 (a non-negative bound the claim
covers), a single `set` on the fresh cache stores one entry, exceeding
maxSize. -/
theorem capacity_invariant_counterexample :
    ¬ (((SimpleCache.new Nat 300000 0).set "a" 7 0 none).cache.length ≤ 0) := by
  decide

/-- C2: `get` increments misses and returns none on an absent key; deletes the
entry, increments misses and returns none on a stale key
(now - timestamp > ttl); increments hits and returns the stored value on a
fresh key; and consequently any value it returns comes from an entry whose age
is at most its ttl — `get` never returns a stale value. -/
theorem get_spec {T : Type} (s : SimpleCache T) (k : String) (now : Int) :
    (mapGet s.cache k = none →
      s.get k now = (none, { s with misses := s.misses + 1 })) ∧
    (∀ e : CacheEntry T, mapGet s.cache k = some e → now - e.timestamp > e.ttl →
      s.get k now = (none, { s with cache := mapDelete s.cache k, misses := s.misses + 1 })) ∧
    (∀ e : CacheEntry T, mapGet s.cache k = some e → ¬(now - e.timestamp > e.ttl) →
      s.get k now = (some e.data, { s with hits := s.hits + 1 })) ∧
    (∀ v : T, (s.get k now).1 = some v →
      ∃ e : CacheEntry T, mapGet s.cache k = some e ∧ e.data = v ∧ now - e.timestamp ≤ e.ttl) := by
  refine ⟨?_, ?_, ?_, ?_⟩
  · intro h
    simp [SimpleCache.get, h]
  · intro e he hexp
    simp [SimpleCache.get, he, hexp]
  · intro e he hexp
    simp [SimpleCache.get, he, hexp]
  · intro v hv
    unfold SimpleCache.get at hv
    cases hg : mapGet s.cache k with
    | none => rw [hg] at hv; simp at hv
    | some e =>
      rw [hg] at hv
      by_cases hexp : now - e.timestamp > e.ttl
      · simp [hexp] at hv
      · simp [hexp] at hv
        exact ⟨e, rfl, hv, not_lt.mp hexp⟩

/-- Witness for get_spec: a miss on the fresh cache. -/
theorem get_spec_witness :
    (SimpleCache.new Nat 1000 10).get "a" 0
      = (none, { SimpleCache.new Nat 1000 10 with misses := 1 }) :=
  (get_spec (SimpleCache.new Nat 1000 10) "a" 0).1 rfl

/-! Lemmas towards the FIFO eviction claim. -/

theorem set_cache_of_lt_fresh {T : Type} (s : SimpleCache T) (c : SetCall T)
    (hlt : s.cache.length < s.maxSize) (hfresh : c.key ∉ s.cache.map Prod.fst) :
    (s.set c.key c.data c.now c.ttl).cache
      = s.cache ++ [(c.key, ⟨c.data, c.now, ttlOrDefault c.ttl s.defaultTTL⟩)] := by
  simp [SimpleCache.set, ensureCapacity_of_lt s hlt, mapSet_of_not_mem _ hfresh]

theorem runSets_fresh {T : Type} (calls : List (SetCall T)) (s : SimpleCache T)
    (hlen : s.cache.length + calls.length ≤ s.maxSize)
    (hnodup : (s.cache.map Prod.fst ++ calls.map SetCall.key).Nodup) :
    (runSets s calls).cache.map Prod.fst
      = s.cache.map Prod.fst ++ calls.map SetCall.key ∧
    (runSets s calls).maxSize = s.maxSize := by
  induction calls generalizing s with
  | nil => simp [runSets]
  | cons c rest ih =>
    have hlt : s.cache.length < s.maxSize := by
      simp only [List.length_cons] at hlen
      omega
    have hfresh : c.key ∉ s.cache.map Prod.fst := by
      intro hmem
      rcases List.nodup_append.mp hnodup with ⟨-, -, hdisj⟩
      exact hdisj hmem (List.mem_cons_self _ _)
    have hset := set_cache_of_lt_fresh s c hlt hfresh
    have hms := set_maxSize s c.key c.data c.now c.ttl
    have hkeys' : (s.set c.key c.data c.now c.ttl).cache.map Prod.fst
        = s.cache.map Prod.fst ++ [c.key] := by
      simp [hset]
    have hlen' : (s.set c.key c.data c.now c.ttl).cache.length + rest.length
        ≤ (s.set c.key c.data c.now c.ttl).maxSize := by
      rw [hms, hset]
      simp only [List.length_append, List.length_cons, List.length_nil,
        List.length_cons] at hlen ⊢
      omega
    have hnodup' : ((s.set c.key c.data c.now c.ttl).cache.map Prod.fst
        ++ rest.map SetCall.key).Nodup := by
      rw [hkeys']
      rw [List.append_assoc]
      simpa [List.singleton_append] using hnodup
    have := ih (s.set c.key c.data c.now c.ttl) hlen' hnodup'
    constructor
    · rw [show runSets s (c :: rest) = runSets (s.set c.key c.data c.now c.ttl) rest from rfl,
        this.1, hkeys', List.append_assoc]
      simp [List.singleton_append]
    · rw [show runSets s (c :: rest) = runSets (s.set c.key c.data c.now c.ttl) rest from rfl,
        this.2, hms]

theorem set_full_cache {T : Type} (s : SimpleCache T) (k : String) (v : T) (now : Int)
    (t : Option Int) (p : String × CacheEntry T) (rest : JsMap (CacheEntry T))
    (hc : s.cache = p :: rest) (hfull : s.maxSize ≤ s.cache.length) (hp : p.1 ≠ "") :
    (s.set k v now t).cache = mapSet rest k ⟨v, now, ttlOrDefault t s.defaultTTL⟩ := by
  have hhead : s.cache.head? = some p := by rw [hc]; rfl
  have hec : s.ensureCapacity = { s with cache := mapDelete s.cache p.1 } := by
    unfold SimpleCache.ensureCapacity
    simp [hfull, hhead, hp]
  simp [SimpleCache.set, hec, hc, mapDelete_cons_self]

theorem ensureCapacity_cases {T : Type} (s : SimpleCache T) :
    s.ensureCapacity.cache = s.cache ∨
      (s.maxSize ≤ s.cache.length ∧ ∃ p, s.cache.head? = some p ∧
        s.ensureCapacity.cache = mapDelete s.cache p.1) := by
  by_cases hfull : s.maxSize ≤ s.cache.length
  · cases hc : s.cache.head? with
    | none =>
      left
      unfold SimpleCache.ensureCapacity
      simp [hfull, hc]
    | some p =>
      by_cases hp : p.1 = ""
      · left
        unfold SimpleCache.ensureCapacity
        simp [hfull, hc, hp]
      · right
        refine ⟨hfull, p, rfl, ?_⟩
        unfold SimpleCache.ensureCapacity
        simp [hfull, hc, hp]
  · left
    rw [ensureCapacity_of_lt s (Nat.not_le.mp hfull)]

/-- C3: starting from the empty cache with maxSize n ≥ 1, inserting n+1
distinct non-empty keys in order via `set` (first c1, then n further calls)
evicts exactly the first key: the resulting entries are keyed by the later n
keys in insertion order, the first key is absent and each later key is
present.  Moreover, in any state, whenever ensureCapacity actually evicts, it
removes the entry whose key heads the insertion order, i.e. the
earliest-inserted entry. -/
theorem fifo_eviction {T : Type} (d : Int) (n : Nat) (c1 : SetCall T)
    (calls : List (SetCall T)) (hn : 1 ≤ n) (hlen : calls.length = n)
    (hnodup : ((c1 :: calls).map SetCall.key).Nodup)
    (hkeys : ∀ c ∈ c1 :: calls, c.key ≠ "") :
    (runSets (SimpleCache.new T d n) (c1 :: calls)).cache.map Prod.fst
        = calls.map SetCall.key ∧
    mapGet (runSets (SimpleCache.new T d n) (c1 :: calls)).cache c1.key = none ∧
    (∀ k, k ∈ calls.map SetCall.key →
      (mapGet (runSets (SimpleCache.new T d n) (c1 :: calls)).cache k).isSome = true) ∧
    (∀ s : SimpleCache T, s.ensureCapacity.cache = s.cache ∨
      (s.maxSize ≤ s.cache.length ∧ ∃ p, s.cache.head? = some p ∧
        s.ensureCapacity.cache = mapDelete s.cache p.1)) := by
  have hne : calls ≠ [] := by
    intro h0
    rw [h0] at hlen
    simp at hlen
    omega
  obtain ⟨front, clast, hsplit⟩ : ∃ front clast, calls = front ++ [clast] :=
    ⟨calls.dropLast, calls.getLast hne, (List.dropLast_append_getLast hne).symm⟩
  have hfl : front.length + 1 = n := by
    rw [hsplit] at hlen
    simpa using hlen
  -- Nodup reshaped: the key of c1, then the front keys, then the last key.
  have hnodup2 : (c1.key :: (front.map SetCall.key ++ [clast.key])).Nodup := by
    rw [hsplit] at hnodup
    simpa using hnodup
  have hnodupPL : ((c1 :: front).map SetCall.key ++ [clast.key]).Nodup := by
    simpa using hnodup2
  -- Phase 1: the first n calls fill the cache without eviction.
  have hfill := runSets_fresh (c1 :: front) (SimpleCache.new T d n)
    (by simp [SimpleCache.new]; omega)
    (by simpa [SimpleCache.new] using List.Nodup.of_append_left hnodupPL)
  have hkeysfill : (runSets (SimpleCache.new T d n) (c1 :: front)).cache.map Prod.fst
      = (c1 :: front).map SetCall.key := by
    simpa [SimpleCache.new] using hfill.1
  have hms : (runSets (SimpleCache.new T d n) (c1 :: front)).maxSize = n := hfill.2
  -- Decompose the filled cache.
  cases hsc : (runSets (SimpleCache.new T d n) (c1 :: front)).cache with
  | nil =>
    rw [hsc] at hkeysfill
    simp at hkeysfill
  | cons q tl =>
    rw [hsc] at hkeysfill
    simp only [List.map_cons, List.cons.injEq] at hkeysfill
    obtain ⟨hq1, htl⟩ := hkeysfill
    have hlenN : (runSets (SimpleCache.new T d n) (c1 :: front)).cache.length = n := by
      rw [hsc]
      have : tl.length = front.length := by
        have := congrArg List.length htl
        simpa using this
      simp [this]
      omega
    have hfullN : (runSets (SimpleCache.new T d n) (c1 :: front)).maxSize
        ≤ (runSets (SimpleCache.new T d n) (c1 :: front)).cache.length := by
      rw [hms, hlenN]
    have hq1ne : q.1 ≠ "" := by
      rw [hq1]
      exact hkeys c1 (List.mem_cons_self _ _)
    -- The full run is the fill phase followed by the final set.
    have happ : runSets (SimpleCache.new T d n) (c1 :: calls)
        = (runSets (SimpleCache.new T d n) (c1 :: front)).set
            clast.key clast.data clast.now clast.ttl := by
      rw [hsplit]
      show runSets (SimpleCache.new T d n) ((c1 :: front) ++ [clast]) = _
      unfold runSets
      rw [List.foldl_append]
      rfl
    have hlastfresh : clast.key ∉ tl.map Prod.fst := by
      rw [htl]
      intro hmem
      rcases List.nodup_append.mp hnodupPL with ⟨-, -, hdisj⟩
      exact hdisj (by simp; right; exact (by simpa using hmem))
        (List.mem_singleton.mpr rfl)
    have hfinal : (runSets (SimpleCache.new T d n) (c1 :: calls)).cache
        = tl ++ [(clast.key,
            ⟨clast.data, clast.now,
              ttlOrDefault clast.ttl
                (runSets (SimpleCache.new T d n) (c1 :: front)).defaultTTL⟩)] := by
      rw [happ,
        set_full_cache _ clast.key clast.data clast.now clast.ttl q tl hsc hfullN hq1ne,
        mapSet_of_not_mem _ hlastfresh]
    have hfinalkeys : (runSets (SimpleCache.new T d n) (c1 :: calls)).cache.map Prod.fst
        = calls.map SetCall.key := by
      rw [hfinal, hsplit]
      simp [htl]
    refine ⟨hfinalkeys, ?_, ?_, fun s => ensureCapacity_cases s⟩
    · have hc1notin : c1.key ∉ calls.map SetCall.key := by
        rw [hsplit]
        rcases List.nodup_cons.mp hnodup2 with ⟨hnotin, -⟩
        simpa using hnotin
      have hns : ¬ ((mapGet (runSets (SimpleCache.new T d n) (c1 :: calls)).cache
          c1.key).isSome = true) := by
        intro hs
        exact hc1notin (hfinalkeys ▸ (mapGet_isSome_iff _ _).mp hs)
      cases hmg : mapGet (runSets (SimpleCache.new T d n) (c1 :: calls)).cache c1.key with
      | none => rfl
      | some e => rw [hmg] at hns; simp at hns
    · intro k hk
      exact (mapGet_isSome_iff _ _).mpr (hfinalkeys ▸ hk)

/-- Witness for fifo_eviction: maxSize 1, keys "a" then "b". -/
theorem fifo_eviction_witness :
    (runSets (SimpleCache.new Nat 5 1)
        [⟨"a", 1, 0, none⟩, ⟨"b", 2, 0, none⟩]).cache.map Prod.fst = ["b"] ∧
    mapGet (runSets (SimpleCache.new Nat 5 1)
        [⟨"a", 1, 0, none⟩, ⟨"b", 2, 0, none⟩]).cache "a" = none :=
  ⟨(fifo_eviction 5 1 ⟨"a", 1, 0, none⟩ [⟨"b", 2, 0, none⟩]
      (by decide) rfl (by decide) (by decide)).1,
   (fifo_eviction 5 1 ⟨"a", 1, 0, none⟩ [⟨"b", 2, 0, none⟩]
      (by decide) rfl (by decide) (by decide)).2.1⟩

/-! Lemmas towards the hit/miss accounting claim. -/

theorem get_counters {T : Type} (s : SimpleCache T) (k : String) (now : Int) :
    (s.get k now).2.hits + (s.get k now).2.misses = s.hits + s.misses + 1 := by
  unfold SimpleCache.get
  cases mapGet s.cache k with
  | none => simp; omega
  | some e =>
    by_cases h : now - e.timestamp > e.ttl
    · simp [h]
      omega
    · simp [h]
      omega

theorem set_counters {T : Type} (s : SimpleCache T) (k : String) (v : T) (now : Int)
    (t : Option Int) : (s.set k v now t).hits = s.hits ∧ (s.set k v now t).misses = s.misses := by
  have h := ensureCapacity_fields s
  exact ⟨by simp [SimpleCache.set, h.2.2.1], by simp [SimpleCache.set, h.2.2.2.1]⟩

theorem runOp_counters {T : Type} (s : SimpleCache T) (op : CacheOp T) :
    (runOp s op).hits + (runOp s op).misses = tallyOp (s.hits + s.misses) op := by
  cases op with
  | set k v t now =>
    have h := set_counters s k v now t
    simp [runOp, tallyOp, h.1, h.2]
  | get k now => simpa [runOp, tallyOp] using get_counters s k now
  | has k now => simpa [runOp, tallyOp, SimpleCache.has] using get_counters s k now
  | delete k => simp [runOp, tallyOp, SimpleCache.delete]
  | clear => simp [runOp, tallyOp, SimpleCache.clear]
  | cleanup now => simp [runOp, tallyOp, SimpleCache.cleanup]
  | getStats => simp [runOp, tallyOp]
  | destroy => simp [runOp, tallyOp, SimpleCache.destroy]

theorem runOps_counters {T : Type} (ops : List (CacheOp T)) (s : SimpleCache T) :
    (runOps s ops).hits + (runOps s ops).misses = ops.foldl tallyOp (s.hits + s.misses) := by
  induction ops generalizing s with
  | nil => rfl
  | cons op rest ih =>
    show (runOps (runOp s op) rest).hits + (runOps (runOp s op) rest).misses = _
    rw [ih (runOp s op), runOp_counters]
    rfl

/-- C4: along any trace of public operations from a fresh cache, hits + misses
equals the number of `get` invocations since the most recent reset
(construction, clear, or destroy), where `has` counts as one `get` invocation
because it calls `get`; and `get` is the only mutator of the counters: set,
delete and cleanup leave hits and misses unchanged, getStats changes no state,
`has` changes state exactly as `get` does, and clear/destroy reset both
counters to zero. -/
theorem hit_miss_accounting {T : Type} (d : Int) (mx : Nat) (ops : List (CacheOp T)) :
    (runOps (SimpleCache.new T d mx) ops).hits
        + (runOps (SimpleCache.new T d mx) ops).misses = getsSinceReset ops ∧
    (∀ (s : SimpleCache T) (k : String) (v : T) (now : Int) (t : Option Int),
      (s.set k v now t).hits = s.hits ∧ (s.set k v now t).misses = s.misses) ∧
    (∀ (s : SimpleCache T) (k : String),
      (s.delete k).hits = s.hits ∧ (s.delete k).misses = s.misses) ∧
    (∀ (s : SimpleCache T) (now : Int),
      (s.cleanup now).hits = s.hits ∧ (s.cleanup now).misses = s.misses) ∧
    (∀ (s : SimpleCache T) (k : String) (now : Int), (s.has k now).2 = (s.get k now).2) ∧
    (∀ (s : SimpleCache T),
      s.clear.hits = 0 ∧ s.clear.misses = 0 ∧ s.destroy.hits = 0 ∧ s.destroy.misses = 0) := by
  refine ⟨?_, fun s k v now t => set_counters s k v now t, ?_, ?_, ?_, ?_⟩
  · simpa [SimpleCache.new, getsSinceReset] using runOps_counters ops (SimpleCache.new T d mx)
  · intro s k
    exact ⟨rfl, rfl⟩
  · intro s now
    exact ⟨rfl, rfl⟩
  · intro s k now
    rfl
  · intro s
    exact ⟨rfl, rfl, rfl, rfl⟩

/-- C5: getStats reports the current entry count as size, the configured
maxSize, the current hits and misses, and a hitRate of hits/(hits+misses) when
there has been at least one request and `none` (undefined, never a 0
placeholder) otherwise; a fresh cache reports an undefined hitRate. -/
theorem getStats_spec {T : Type} (s : SimpleCache T) :
    s.getStats.size = s.cache.length ∧
    s.getStats.maxSize = s.maxSize ∧
    s.getStats.hits = s.hits ∧
    s.getStats.misses = s.misses ∧
    (0 < s.hits + s.misses →
      s.getStats.hitRate = some ((s.hits : ℚ) / (((s.hits + s.misses : Nat)) : ℚ))) ∧
    (s.hits + s.misses = 0 → s.getStats.hitRate = none) ∧
    (∀ (d : Int) (mx : Nat), (SimpleCache.new T d mx).getStats.hitRate = none) := by
  refine ⟨rfl, rfl, rfl, rfl, ?_, ?_, ?_⟩
  · intro h
    simp [SimpleCache.getStats, h]
  · intro h
    simp [SimpleCache.getStats, h]
  · intro d mx
    rfl

/-- Witness for getStats_spec: two hits and three misses give hitRate 2/5,
while the fresh cache has hitRate none. -/
theorem getStats_spec_witness :
    (⟨[], 5, 2, true, 2, 3⟩ : SimpleCache Nat).getStats.hitRate = some ((2 : ℚ) / 5) ∧
    (SimpleCache.new Nat 5 2).getStats.hitRate = none :=
  ⟨(getStats_spec (⟨[], 5, 2, true, 2, 3⟩ : SimpleCache Nat)).2.2.2.2.1 (by decide),
   (getStats_spec (SimpleCache.new Nat 5 2)).2.2.2.2.2.2 5 2⟩

/-- C6: after cleanup an entry is present exactly when it was present before
and its age does not exceed its ttl; cleanup at a fixed time is idempotent and
never changes the hits or misses counters. -/
theorem cleanup_spec {T : Type} (s : SimpleCache T) (now : Int) :
    (∀ (k : String) (e : CacheEntry T),
      (k, e) ∈ (s.cleanup now).cache ↔ ((k, e) ∈ s.cache ∧ now - e.timestamp ≤ e.ttl)) ∧
    (s.cleanup now).cleanup now = s.cleanup now ∧
    (s.cleanup now).hits = s.hits ∧ (s.cleanup now).misses = s.misses := by
  refine ⟨?_, ?_, rfl, rfl⟩
  · intro k e
    simp [SimpleCache.cleanup, List.mem_filter, not_lt]
  · simp [SimpleCache.cleanup, List.filter_filter]

/-- Witness for cleanup_spec: the spec's scenario, entries with TTL 100, 200
and 1000 inserted at time 0 and cleaned up at time 150: the 200ms entry stays
and the 100ms entry is gone. -/
theorem cleanup_spec_witness :
    ("b", (⟨2, 0, 200⟩ : CacheEntry Nat)) ∈
      ((⟨[("a", ⟨1, 0, 100⟩), ("b", ⟨2, 0, 200⟩), ("c", ⟨3, 0, 1000⟩)], 300000, 10, true, 0, 0⟩ :
        SimpleCache Nat).cleanup 150).cache ∧
    ¬ ("a", (⟨1, 0, 100⟩ : CacheEntry Nat)) ∈
      ((⟨[("a", ⟨1, 0, 100⟩), ("b", ⟨2, 0, 200⟩), ("c", ⟨3, 0, 1000⟩)], 300000, 10, true, 0, 0⟩ :
        SimpleCache Nat).cleanup 150).cache :=
  ⟨((cleanup_spec (⟨[("a", ⟨1, 0, 100⟩), ("b", ⟨2, 0, 200⟩), ("c", ⟨3, 0, 1000⟩)],
        300000, 10, true, 0, 0⟩ : SimpleCache Nat) 150).1 "b" ⟨2, 0, 200⟩).mpr
      ⟨by decide, by decide⟩,
   fun hmem =>
    by simpa using (((cleanup_spec (⟨[("a", ⟨1, 0, 100⟩), ("b", ⟨2, 0, 200⟩),
        ("c", ⟨3, 0, 1000⟩)], 300000, 10, true, 0, 0⟩ : SimpleCache Nat) 150).1
        "a" ⟨1, 0, 100⟩).mp hmem).2⟩

/-- C7: calling set with the TTL argument omitted, or with the falsy TTL value
0, produces exactly the same cache state as calling set with the defaultTTL. -/
theorem default_ttl_spec {T : Type} (s : SimpleCache T) (k : String) (v : T) (now : Int) :
    s.set k v now none = s.set k v now (some s.defaultTTL) ∧
    s.set k v now (some 0) = s.set k v now (some s.defaultTTL) := by
  have hd : s.ensureCapacity.defaultTTL = s.defaultTTL := (ensureCapacity_fields s).1
  constructor
  · simp only [SimpleCache.set, ttlOrDefault, hd]
    by_cases h : s.defaultTTL = 0 <;> simp [h]
  · simp only [SimpleCache.set, ttlOrDefault, hd]
    by_cases h : s.defaultTTL = 0 <;> simp [h]

/-- Witness for default_ttl_spec on a concrete cache. -/
theorem default_ttl_spec_witness :
    (⟨[], 5, 2, true, 0, 0⟩ : SimpleCache Nat).set "a" 3 0 none
      = (⟨[], 5, 2, true, 0, 0⟩ : SimpleCache Nat).set "a" 3 0 (some 5) :=
  (default_ttl_spec (⟨[], 5, 2, true, 0, 0⟩ : SimpleCache Nat) "a" 3 0).1

/-- C8: has returns true exactly when get would return a value, and has
performs exactly the same state change as get (it is literally an invocation
of get), so it mutates the hit/miss statistics and deletes stale entries just
as get does. -/
theorem has_spec {T : Type} (s : SimpleCache T) (k : String) (now : Int) :
    ((s.has k now).1 = true ↔ ∃ v, (s.get k now).1 = some v) ∧
    (s.has k now).2 = (s.get k now).2 := by
  refine ⟨?_, rfl⟩
  simp [SimpleCache.has, Option.isSome_iff_exists]

/-- Witness for has_spec: a stale entry, where has reports false, increments
misses and deletes the entry exactly as get would. -/
theorem has_spec_witness :
    ((⟨[("a", ⟨1, 0, 100⟩)], 5, 2, true, 0, 0⟩ : SimpleCache Nat).has "a" 500).2
      = ((⟨[("a", ⟨1, 0, 100⟩)], 5, 2, true, 0, 0⟩ : SimpleCache Nat).get "a" 500).2 :=
  (has_spec (⟨[("a", ⟨1, 0, 100⟩)], 5, 2, true, 0, 0⟩ : SimpleCache Nat) "a" 500).2

/-- C9 (amended): destroy is idempotent and safe to call more than once; it
cancels the sweep timer, empties the cache and zeroes the statistics, and no
operation on a destroyed instance raises.  However, operations on a destroyed
instance are NOT no-ops: set inserts an entry into the destroyed cache and get
increments the miss counter, exactly as on a live cache. -/
theorem destroy_spec {T : Type} (s : SimpleCache T) :
    s.destroy.destroy = s.destroy ∧
    s.destroy.cache = [] ∧ s.destroy.hits = 0 ∧ s.destroy.misses = 0 ∧
    s.destroy.cleanupInterval = false ∧
    (∀ (k : String) (v : T) (now : Int) (t : Option Int),
      (s.destroy.set k v now t).cache = [(k, ⟨v, now, ttlOrDefault t s.defaultTTL⟩)]) ∧
    (∀ (k : String) (now : Int),
      s.destroy.get k now = (none, { s.destroy with misses := 1 })) := by
  refine ⟨rfl, rfl, rfl, rfl, rfl, ?_, ?_⟩
  · intro k v now t
    have hec : s.destroy.ensureCapacity = s.destroy := by
      unfold SimpleCache.ensureCapacity
      split <;> rfl
    simp only [SimpleCache.set, hec]
    simp [SimpleCache.destroy, mapSet]
  · intro k now
    simp [SimpleCache.get, SimpleCache.destroy, mapGet]

/-- Witness for destroy_spec: double destroy on a concrete cache. -/
theorem destroy_spec_witness :
    ((⟨[("a", ⟨1, 0, 100⟩)], 5, 2, true, 3, 4⟩ : SimpleCache Nat).destroy.destroy
      = (⟨[("a", ⟨1, 0, 100⟩)], 5, 2, true, 3, 4⟩ : SimpleCache Nat).destroy) ∧
    ((⟨[("a", ⟨1, 0, 100⟩)], 5, 2, true, 3, 4⟩ : SimpleCache Nat).destroy.set "b" 9 7 none).cache
      = [("b", ⟨9, 7, 5⟩)] :=
  ⟨(destroy_spec (⟨[("a", ⟨1, 0, 100⟩)], 5, 2, true, 3, 4⟩ : SimpleCache Nat)).1,
   (destroy_spec (⟨[("a", ⟨1, 0, 100⟩)], 5, 2, true, 3, 4⟩ : SimpleCache Nat)).2.2.2.2.2.1
     "b" 9 7 none⟩

/-- C9 counterexample: operations after destroy are not no-ops.  Calling set
on a destroyed cache leaves an entry in it (the claim says the destroyed cache
stays empty), and calling get on a destroyed cache leaves a non-zero miss
counter (the claim says statistics stay zeroed). -/
theorem destroy_noop_counterexample :
    ((SimpleCache.new Nat 300000 100).destroy.set "a" 7 0 none).cache.length ≠ 0 ∧
    ((SimpleCache.new Nat 300000 100).destroy.get "a" 0).2.misses ≠ 0 := by
  decide

/-- C10: re-setting a key that is already present overwrites its value and
refreshes its timestamp in place: when no eviction fires (size < maxSize) the
key sequence of the cache is unchanged, so the key keeps its original
insertion position and can still be the next evicted; and the capacity check
runs even on an overwrite: whenever size >= maxSize (and the earliest key is a
non-empty string, the spec's input domain), set first evicts the
earliest-positioned entry — possibly the very key being overwritten — before
writing. -/
theorem overwrite_spec {T : Type} (s : SimpleCache T) (k : String) (v : T) (now : Int)
    (t : Option Int) :
    (s.cache.length < s.maxSize →
      (s.set k v now t).cache = mapSet s.cache k ⟨v, now, ttlOrDefault t s.defaultTTL⟩ ∧
      (k ∈ s.cache.map Prod.fst →
        (s.set k v now t).cache.map Prod.fst = s.cache.map Prod.fst ∧
        mapGet (s.set k v now t).cache k = some ⟨v, now, ttlOrDefault t s.defaultTTL⟩)) ∧
    (∀ (p : String × CacheEntry T) (rest : JsMap (CacheEntry T)),
      s.cache = p :: rest → s.maxSize ≤ s.cache.length → p.1 ≠ "" →
      (s.set k v now t).cache = mapSet rest k ⟨v, now, ttlOrDefault t s.defaultTTL⟩) := by
  constructor
  · intro hlt
    have hec := ensureCapacity_of_lt s hlt
    refine ⟨by simp [SimpleCache.set, hec], fun hmem => ⟨?_, ?_⟩⟩
    · simp [SimpleCache.set, hec, mapSet_keys_of_mem _ hmem]
    · simp [SimpleCache.set, hec, mapGet_mapSet_self]
  · intro p rest hc hfull hp
    exact set_full_cache s k v now t p rest hc hfull hp

/-- Witness for overwrite_spec: overwriting the first of two keys in a cache
with spare capacity keeps the key order, and overwriting the only key of a
full one-slot cache first evicts that key. -/
theorem overwrite_spec_witness :
    ((⟨[("a", ⟨1, 0, 5⟩), ("b", ⟨2, 0, 5⟩)], 5, 3, true, 0, 0⟩ : SimpleCache Nat).set
        "a" 9 1 none).cache.map Prod.fst = ["a", "b"] ∧
    ((⟨[("a", ⟨1, 0, 5⟩)], 5, 1, true, 0, 0⟩ : SimpleCache Nat).set
        "a" 9 1 none).cache = [("a", ⟨9, 1, 5⟩)] :=
  ⟨(((overwrite_spec (⟨[("a", ⟨1, 0, 5⟩), ("b", ⟨2, 0, 5⟩)], 5, 3, true, 0, 0⟩ :
        SimpleCache Nat) "a" 9 1 none).1 (by decide)).2 (by decide)).1,
   (overwrite_spec (⟨[("a", ⟨1, 0, 5⟩)], 5, 1, true, 0, 0⟩ : SimpleCache Nat)
        "a" 9 1 none).2 ("a", ⟨1, 0, 5⟩) [] rfl (by decide) (by decide)⟩

end CacheModel
